import Mathlib

/-!
Verification of the geometry/rectification core of an image-correction GUI
(`src/gui/image_view.py`, `src/gui/grid_overlay.py`, `src/gui/main_window.py`,
`src/gui/point_selector.py`).

Modelling conventions:
* the source's floating-point scalars are modelled by exact rationals (`ℚ`),
  except where a Euclidean norm forces real numbers (`ℝ`);
* Python's `//` on integers is `Int.fdiv`, Python's `int()` float truncation
  is `pyInt`;
* pixel buffers are lists of channel triples; the two colour conversions in
  the two image-load paths are modelled as the identity (cv2: BGR file data
  converted to RGB triples) and a red/blue channel swap (QImage path:
  RGBA data converted to BGR order).
-/

namespace ImageCorrection

/-- Pt is a 2D point with rational coordinates, modelling the source's
floating-point `(x, y)` pairs (`QPointF` or numpy rows). -/
abbrev Pt := ℚ × ℚ

/-- pyInt models Python's `int()` applied to a float: truncation toward zero. -/
def pyInt (q : ℚ) : ℤ := if 0 ≤ q then ⌊q⌋ else -⌊-q⌋

/-! ## ViewTransform: `ImageView` pan/zoom state and coordinate mapping
(`image_view.py`). -/

/-- ViewState models the state of `ImageView` that the coordinate mapping
reads: `scale_factor`, `pan_offset`, the widget size (`width()`, `height()`)
and the loaded image's pixel size.  The model presumes an image is loaded
(the source's mapping functions return `QPointF(0, 0)` and `wheelEvent`
returns early when `self.image is None`). -/
structure ViewState where
  scale : ℚ
  panX : ℚ
  panY : ℚ
  viewW : ℤ
  viewH : ℤ
  imgW : ℕ
  imgH : ℕ
deriving DecidableEq

/-- scaledW models `self.scaled_pixmap.width()`: `_update_scaled_pixmap`
scales the pixmap to `int(width * self.scale_factor)`.  (Qt's
`KeepAspectRatio` mode coincides with this whenever the truncated width and
height preserve the aspect ratio, as at every input evaluated here.) -/
def scaledW (v : ViewState) : ℤ := pyInt ((v.imgW : ℚ) * v.scale)

/-- scaledH models `self.scaled_pixmap.height()`. -/
def scaledH (v : ViewState) : ℤ := pyInt ((v.imgH : ℚ) * v.scale)

/-- originX models `(self.width() - self.scaled_pixmap.width()) // 2 +
self.pan_offset[0]` from `map_to_image` / `map_to_viewport`. -/
def originX (v : ViewState) : ℚ := (((v.viewW - scaledW v).fdiv 2 : ℤ) : ℚ) + v.panX

/-- originY is the y component of the centring offset plus pan. -/
def originY (v : ViewState) : ℚ := (((v.viewH - scaledH v).fdiv 2 : ℤ) : ℚ) + v.panY

/-- map_to_image models `ImageView.map_to_image` (viewport → image). -/
def map_to_image (v : ViewState) (p : Pt) : Pt :=
  ((p.1 - originX v) / v.scale, (p.2 - originY v) / v.scale)

/-- map_to_viewport models `ImageView.map_to_viewport` (image → viewport). -/
def map_to_viewport (v : ViewState) (p : Pt) : Pt :=
  (p.1 * v.scale + originX v, p.2 * v.scale + originY v)

/-- zoomFactor models `1.1 if event.angleDelta().y() > 0 else 0.9` in
`ImageView.wheelEvent`. -/
def zoomFactor (angleDeltaY : ℤ) : ℚ := if 0 < angleDeltaY then 11/10 else 9/10

/-- wheelEvent models `ImageView.wheelEvent` with an image loaded: the new
scale is `scale * zoomFactor`; if it lies in `[0.1, 10.0]` the scale is
updated and the pan offset re-solved from the cursor position, otherwise
nothing changes. -/
def wheelEvent (v : ViewState) (angleDeltaY : ℤ) (mouseX mouseY : ℚ) : ViewState :=
  let ns := v.scale * zoomFactor angleDeltaY
  if 1/10 ≤ ns ∧ ns ≤ 10 then
    let ix := (mouseX - v.panX) / v.scale
    let iy := (mouseY - v.panY) / v.scale
    { v with scale := ns, panX := mouseX - ix * ns, panY := mouseY - iy * ns }
  else v

end ImageCorrection

namespace ImageCorrection

/-- C3: mapping a viewport point to image coordinates and back yields the
original point exactly (hence within the stated 1e-6 tolerance), for any
view state with a nonzero scale factor and an image loaded.  Both
directions use the same centring-plus-pan origin, so the composition is
`((p - o)/s)*s + o = p`. -/
theorem map_roundtrip (v : ViewState) (hs : v.scale ≠ 0) (p : Pt) :
    map_to_viewport v (map_to_image v p) = p := by
  simp only [map_to_viewport, map_to_image]
  have h1 : (p.1 - originX v) / v.scale * v.scale + originX v = p.1 := by
    field_simp
  have h2 : (p.2 - originY v) / v.scale * v.scale + originY v = p.2 := by
    field_simp
  rw [h1, h2]

/-- viewA is a sample loaded view state used by witnesses. -/
def viewA : ViewState := { scale := 2, panX := 5, panY := -3, viewW := 800, viewH := 600, imgW := 400, imgH := 300 }

/-- Witness for `map_roundtrip` at a concrete view state and point. -/
theorem map_roundtrip_witness :
    viewA.scale ≠ 0 ∧ map_to_viewport viewA (map_to_image viewA (7, 11)) = (7, 11) :=
  ⟨by norm_num [viewA], map_roundtrip viewA (by norm_num [viewA]) (7, 11)⟩

/-- viewB is the concrete view state of the zoom counterexample: a 400×400
image at scale 1 in an 800×800 viewport, no pan. -/
def viewB : ViewState := { scale := 1, panX := 0, panY := 0, viewW := 800, viewH := 800, imgW := 400, imgH := 400 }

/-- C4 counterexample: a wheel-down step from scale 1 yields scale `0.9`,
not `1/1.1` as the claim states, and the image point that was under the
cursor does not map back to the cursor's viewport pixel (the centring
offset `(width - scaledWidth) // 2` used by the mapping changes with the
scale, but `wheelEvent` re-solves the pan without it: the restored point
is 40 px off horizontally). -/
theorem wheel_zoom_counterexample :
    (wheelEvent viewB (-120) 400 300).scale ≠ viewB.scale / (11/10) ∧
    map_to_viewport (wheelEvent viewB (-120) 400 300)
        (map_to_image viewB (400, 300)) ≠ (400, 300) := by
  constructor <;> with_unfolding_all decide

/-- C4 amended: with an image loaded and a nonzero scale, a wheel step
multiplies the scale by 1.1 (wheel up) or by 0.9 (wheel down); if the
result lies in `[0.1, 10.0]` the scale is updated and the pan offset is
re-solved so that the quantity `(mouse - pan)/scale` — the anchor of the
internal pan-only mapping used by `wheelEvent`, which omits the centring
offset of `map_to_viewport` — is preserved; otherwise the event changes
nothing (the step is skipped, not clamped). -/
theorem wheelEvent_spec (v : ViewState) (hs : v.scale ≠ 0) (d : ℤ) (mx my : ℚ) :
    ((1/10 ≤ v.scale * zoomFactor d ∧ v.scale * zoomFactor d ≤ 10) →
      (wheelEvent v d mx my).scale = v.scale * zoomFactor d ∧
      (mx - (wheelEvent v d mx my).panX) / (v.scale * zoomFactor d) = (mx - v.panX) / v.scale ∧
      (my - (wheelEvent v d mx my).panY) / (v.scale * zoomFactor d) = (my - v.panY) / v.scale) ∧
    (¬ (1/10 ≤ v.scale * zoomFactor d ∧ v.scale * zoomFactor d ≤ 10) →
      wheelEvent v d mx my = v) := by
  have hzf : zoomFactor d ≠ 0 := by unfold zoomFactor; split <;> norm_num
  have hns : v.scale * zoomFactor d ≠ 0 := mul_ne_zero hs hzf
  constructor
  · intro h
    simp only [wheelEvent, if_pos h]
    refine ⟨trivial, ?_, ?_⟩
    · field_simp
      ring
    · field_simp
      ring
  · intro h
    simp only [wheelEvent, if_neg h]

/-- Witness for `wheelEvent_spec`: at `viewA` (scale 2) a wheel-up step is
in range and multiplies the scale by 1.1. -/
theorem wheelEvent_spec_witness :
    viewA.scale ≠ 0 ∧
    (1/10 ≤ viewA.scale * zoomFactor 120 ∧ viewA.scale * zoomFactor 120 ≤ 10) ∧
    (wheelEvent viewA 120 50 60).scale = viewA.scale * zoomFactor 120 := by
  have hs : viewA.scale ≠ 0 := by norm_num [viewA]
  have hc : (1/10 : ℚ) ≤ viewA.scale * zoomFactor 120 ∧ viewA.scale * zoomFactor 120 ≤ 10 := by
    norm_num [viewA, zoomFactor]
  exact ⟨hs, hc, ((wheelEvent_spec viewA hs 120 50 60).1 hc).1⟩

/-! ## GridGenerator: `GridOverlay` (`grid_overlay.py`). -/

/-- linspaceAt models `np.linspace(0, 1, n)[i]`: the i-th of `n` evenly
spaced samples from 0 to 1, i.e. `i/(n-1)` (the source always calls it with
`n ≥ 2`). -/
def linspaceAt (n i : ℕ) : ℚ := (i : ℚ) / ((n : ℚ) - 1)

/-- gridCell is one cell of `GridOverlay._generate_grid`: bilinear
interpolation `corners[0]*(1-r)*(1-c) + corners[1]*(1-r)*c +
corners[2]*r*c + corners[3]*r*(1-c)` at parameters `r = rows[i]`,
`c = cols[j]`. -/
def gridCell (pts : List Pt) (rows cols i j : ℕ) : Pt :=
  let r := linspaceAt rows i
  let c := linspaceAt cols j
  let p0 := pts.getD 0 (0, 0)
  let p1 := pts.getD 1 (0, 0)
  let p2 := pts.getD 2 (0, 0)
  let p3 := pts.getD 3 (0, 0)
  (p0.1 * (1 - r) * (1 - c) + p1.1 * (1 - r) * c + p2.1 * r * c + p3.1 * r * (1 - c),
   p0.2 * (1 - r) * (1 - c) + p1.2 * (1 - r) * c + p2.2 * r * c + p3.2 * r * (1 - c))

/-- generate_grid models `GridOverlay._generate_grid` (called only with 4
points): the `rows × cols` lattice of bilinearly interpolated points. -/
def generate_grid (pts : List Pt) (rows cols : ℕ) : List (List Pt) :=
  (List.range rows).map fun i => (List.range cols).map fun j => gridCell pts rows cols i j

/-- set_points models the effect of `GridOverlay.set_points` on
`grid_points`: regenerate when exactly 4 points are supplied, otherwise
`None`. -/
def set_points (pts : List Pt) (rows cols : ℕ) : Option (List (List Pt)) :=
  if pts.length = 4 then some (generate_grid pts rows cols) else none

/-- C5: with exactly 4 corner points and `rows, cols ≥ 2`, every cell
`(i, j)` of the generated grid equals the bilinear combination of the four
corners at `r = i/(rows-1)`, `c = j/(cols-1)`; generation is deterministic
(two calls with identical inputs are identical); and `set_points` with a
point list whose length is not 4 yields an absent (`none`) grid. -/
theorem grid_generation_spec (pts : List Pt) (rows cols : ℕ)
    (h4 : pts.length = 4) (hr : 2 ≤ rows) (hc : 2 ≤ cols) :
    (∀ i < rows, ∀ j < cols,
      ((generate_grid pts rows cols).getD i []).getD j (0, 0) =
        ((pts.getD 0 (0,0)).1 * (1 - (i : ℚ) / ((rows : ℚ) - 1)) * (1 - (j : ℚ) / ((cols : ℚ) - 1)) +
           (pts.getD 1 (0,0)).1 * (1 - (i : ℚ) / ((rows : ℚ) - 1)) * ((j : ℚ) / ((cols : ℚ) - 1)) +
           (pts.getD 2 (0,0)).1 * ((i : ℚ) / ((rows : ℚ) - 1)) * ((j : ℚ) / ((cols : ℚ) - 1)) +
           (pts.getD 3 (0,0)).1 * ((i : ℚ) / ((rows : ℚ) - 1)) * (1 - (j : ℚ) / ((cols : ℚ) - 1)),
         (pts.getD 0 (0,0)).2 * (1 - (i : ℚ) / ((rows : ℚ) - 1)) * (1 - (j : ℚ) / ((cols : ℚ) - 1)) +
           (pts.getD 1 (0,0)).2 * (1 - (i : ℚ) / ((rows : ℚ) - 1)) * ((j : ℚ) / ((cols : ℚ) - 1)) +
           (pts.getD 2 (0,0)).2 * ((i : ℚ) / ((rows : ℚ) - 1)) * ((j : ℚ) / ((cols : ℚ) - 1)) +
           (pts.getD 3 (0,0)).2 * ((i : ℚ) / ((rows : ℚ) - 1)) * (1 - (j : ℚ) / ((cols : ℚ) - 1)))) ∧
    generate_grid pts rows cols = generate_grid pts rows cols ∧
    set_points pts rows cols = some (generate_grid pts rows cols) ∧
    (∀ qs : List Pt, qs.length ≠ 4 → set_points qs rows cols = none) := by
  refine ⟨?_, rfl, by simp [set_points, h4], ?_⟩
  · intro i hi j hj
    have hlen1 : i < (generate_grid pts rows cols).length := by
      simpa [generate_grid] using hi
    rw [List.getD_eq_getElem _ _ hlen1]
    have hrow : (generate_grid pts rows cols)[i] =
        (List.range cols).map fun j => gridCell pts rows cols i j := by
      simp [generate_grid]
    rw [hrow]
    have hlen2 : j < ((List.range cols).map fun j => gridCell pts rows cols i j).length := by
      simpa using hj
    rw [List.getD_eq_getElem _ _ hlen2]
    simp [gridCell, linspaceAt]
  · intro qs hqs
    simp [set_points, hqs]

/-- pts4 is a concrete 4-corner set (the axis-aligned square from the
spec's concrete scenario). -/
def pts4 : List Pt := [(10, 10), (110, 10), (110, 110), (10, 110)]

/-- Witness for `grid_generation_spec` at the concrete square corners with
a 2×2 grid. -/
theorem grid_generation_spec_witness :
    pts4.length = 4 ∧ 2 ≤ 2 ∧
    set_points pts4 2 2 = some (generate_grid pts4 2 2) :=
  ⟨rfl, le_refl 2, (grid_generation_spec pts4 2 2 rfl (le_refl 2) (le_refl 2)).2.2.1⟩

/-! ## CornerOrderer: `MainWindow._order_points` (`main_window.py`).

The source sorts the four points by `np.arctan2(y - cy, x - cx)` and then
rotates the sorted cycle so that the point minimising `x + y` comes first.
Real `atan2` values are transcendental, but their ORDER on rational points
is exact rational data: `atan2(y, x)` ranges over `(-π, π]`, stratified as
`y < 0` (angles in `(-π, 0)`), then `y = 0 ∧ 0 ≤ x` (angle `0`; this
includes the origin, where `atan2(0,0) = 0`), then `y > 0` (angles in
`(0, π)`), then `y = 0 ∧ x < 0` (angle `π`); and inside either open
half-plane `atan2(y₁,x₁) < atan2(y₂,x₂) ↔ x₁·y₂ - y₁·x₂ > 0
↔ -x₁/y₁ < -x₂/y₂` (dividing by `y₁·y₂ > 0`).  The comparator below is
therefore the exact order of the source's float angle sort (up to float
rounding of the angles themselves). -/

/-- ptSub is componentwise point subtraction (`point - centroid`). -/
def ptSub (p q : Pt) : Pt := (p.1 - q.1, p.2 - q.2)

/-- centroid models `np.mean(points_array, axis=0)`. -/
def centroid (l : List Pt) : Pt :=
  ((l.map Prod.fst).sum / l.length, (l.map Prod.snd).sum / l.length)

/-- atanClass stratifies the plane by the coarse value of `atan2(y, x)`:
0 for the open lower half-plane, 1 for the non-negative x-axis (angle 0),
2 for the open upper half-plane, 3 for the negative x-axis (angle π). -/
def atanClass (p : Pt) : ℕ :=
  if p.2 < 0 then 0
  else if p.2 = 0 ∧ 0 ≤ p.1 then 1
  else if 0 < p.2 then 2
  else 3

/-- atanKey orders points within one open half-plane by angle:
`-x/y` is strictly increasing in `atan2(y, x)` there.  On the x-axis
(classes 1 and 3) all angles are equal and the key is irrelevant. -/
def atanKey (p : Pt) : ℚ := if p.2 = 0 then 0 else -(p.1 / p.2)

/-- angPair is the full comparison key of a point about centre `c`:
two points have equal `angPair` exactly when their `atan2` angles about
`c` are equal. -/
def angPair (c p : Pt) : ℕ × ℚ := (atanClass (ptSub p c), atanKey (ptSub p c))

/-- angLe compares `atan2` angles about `c`: lexicographic on
(class, in-class key). -/
def angLe (c p q : Pt) : Prop :=
  (angPair c p).1 < (angPair c q).1 ∨
    ((angPair c p).1 = (angPair c q).1 ∧ (angPair c p).2 ≤ (angPair c q).2)

instance angLe.decidableRel (c : Pt) : DecidableRel (angLe c) := fun p q => by
  unfold angLe
  exact inferInstance

theorem angLe_refl (c p : Pt) : angLe c p p := Or.inr ⟨rfl, le_refl _⟩

theorem angLe_total (c p q : Pt) : angLe c p q ∨ angLe c q p := by
  unfold angLe
  rcases Nat.lt_trichotomy (angPair c p).1 (angPair c q).1 with h | h | h
  · exact Or.inl (Or.inl h)
  · rcases le_total (angPair c p).2 (angPair c q).2 with hk | hk
    · exact Or.inl (Or.inr ⟨h, hk⟩)
    · exact Or.inr (Or.inr ⟨h.symm, hk⟩)
  · exact Or.inr (Or.inl h)

theorem angLe_trans (c : Pt) : ∀ p q r : Pt, angLe c p q → angLe c q r → angLe c p r := by
  intro p q r hpq hqr
  unfold angLe at hpq hqr ⊢
  rcases hpq with h1 | ⟨h1, k1⟩ <;> rcases hqr with h2 | ⟨h2, k2⟩
  · exact Or.inl (Nat.lt_trans h1 h2)
  · exact Or.inl (h2 ▸ h1)
  · exact Or.inl (h1 ▸ h2)
  · exact Or.inr ⟨h1.trans h2, k1.trans k2⟩

/-- angLe in both directions forces equal angles (equal comparison keys). -/
theorem angLe_antisymm_pair (c p q : Pt) (h1 : angLe c p q) (h2 : angLe c q p) :
    angPair c p = angPair c q := by
  unfold angLe at h1 h2
  rcases h1 with h1 | ⟨h1, k1⟩
  · rcases h2 with h2 | ⟨h2, _⟩
    · exact absurd (Nat.lt_trans h1 h2) (Nat.lt_irrefl _)
    · exact absurd (h2 ▸ h1) (Nat.lt_irrefl _)
  · rcases h2 with h2 | ⟨_, k2⟩
    · exact absurd (h1 ▸ h2) (Nat.lt_irrefl _)
    · exact Prod.ext h1 (le_antisymm k1 k2)

/-- sumXY models `p.x() + p.y()`. -/
def sumXY (p : Pt) : ℚ := p.1 + p.2

/-- listMin models Python's `min` on a list of floats (0 on the empty
list, which the source never passes). -/
def listMin : List ℚ → ℚ
  | [] => 0
  | x :: xs => xs.foldl min x

/-- order_points models `MainWindow._order_points`: sort the points by
`atan2` angle about their centroid, then rotate the sorted cycle so the
point with the least `x + y` (first occurrence) comes first.  (The
source's `try/except` fallback is unreachable for well-formed input.) -/
def order_points (l : List Pt) : List Pt :=
  let c := centroid l
  let sorted := List.insertionSort (angLe c) l
  let sums := sorted.map sumXY
  sorted.rotate (sums.indexOf (listMin sums))

theorem foldl_min_le (xs : List ℚ) : ∀ x : ℚ, xs.foldl min x ≤ x ∧ ∀ y ∈ xs, xs.foldl min x ≤ y := by
  induction xs with
  | nil =>
    intro x
    exact ⟨le_refl x, by simp⟩
  | cons z zs ih =>
    intro x
    have h := ih (min x z)
    refine ⟨h.1.trans (min_le_left x z), ?_⟩
    intro y hy
    rcases List.mem_cons.mp hy with rfl | hy
    · exact h.1.trans (min_le_right x y)
    · exact h.2 y hy

theorem foldl_min_mem (xs : List ℚ) : ∀ x : ℚ, xs.foldl min x ∈ x :: xs := by
  induction xs with
  | nil =>
    intro x
    simp
  | cons z zs ih =>
    intro x
    have h := ih (min x z)
    have heq : (z :: zs).foldl min x = zs.foldl min (min x z) := rfl
    rw [heq]
    rcases List.mem_cons.mp h with he | hm
    · rcases min_choice x z with hc | hc
      · rw [he, hc]
        exact List.mem_cons_self x (z :: zs)
      · rw [he, hc]
        exact List.mem_cons_of_mem x (List.mem_cons_self z zs)
    · exact List.mem_cons_of_mem x (List.mem_cons_of_mem z hm)

theorem listMin_le {l : List ℚ} {x : ℚ} (hx : x ∈ l) : listMin l ≤ x := by
  cases l with
  | nil => cases hx
  | cons a as =>
    rcases List.mem_cons.mp hx with rfl | hm
    · exact (foldl_min_le as x).1
    · exact (foldl_min_le as a).2 x hm

theorem listMin_mem {l : List ℚ} (h : l ≠ []) : listMin l ∈ l := by
  cases l with
  | nil => exact absurd rfl h
  | cons a as => exact foldl_min_mem as a

theorem listMin_perm {l₁ l₂ : List ℚ} (h : l₁.Perm l₂) : listMin l₁ = listMin l₂ := by
  cases l₁ with
  | nil =>
    have h2 : l₂ = [] := h.symm.eq_nil
    rw [h2]
  | cons a as =>
    have h1ne : a :: as ≠ ([] : List ℚ) := by simp
    have h2ne : l₂ ≠ [] := by
      intro he
      rw [he] at h
      exact h1ne h.eq_nil
    exact le_antisymm (listMin_le (h.symm.subset (listMin_mem h2ne)))
      (listMin_le (h.subset (listMin_mem h1ne)))

/-- Sorted lists over the angle order that are permutations of each other
and have pairwise-distinct angle keys are equal. -/
theorem sorted_perm_eq (c : Pt) :
    ∀ l₁ l₂ : List Pt, l₁.Perm l₂ → l₁.Sorted (angLe c) → l₂.Sorted (angLe c) →
      (∀ p ∈ l₁, ∀ q ∈ l₁, angPair c p = angPair c q → p = q) → l₁ = l₂ := by
  intro l₁
  induction l₁ with
  | nil =>
    intro l₂ hp _ _ _
    exact (hp.symm.eq_nil).symm
  | cons a t ih =>
    intro l₂ hp hs₁ hs₂ hinj
    cases l₂ with
    | nil => exact absurd hp.eq_nil (by simp)
    | cons b u =>
      have hab : a ∈ b :: u := hp.subset (List.mem_cons_self a t)
      have hba : b ∈ a :: t := hp.symm.subset (List.mem_cons_self b u)
      have h1 : angLe c a b := by
        rcases List.mem_cons.mp hba with he | hm
        · cases he
          exact angLe_refl c a
        · exact List.rel_of_sorted_cons hs₁ b hm
      have h2 : angLe c b a := by
        rcases List.mem_cons.mp hab with he | hm
        · cases he
          exact angLe_refl c a
        · exact List.rel_of_sorted_cons hs₂ a hm
      have hae : a = b := hinj a (List.mem_cons_self a t) b hba (angLe_antisymm_pair c a b h1 h2)
      subst hae
      have htail : t = u := by
        refine ih u hp.cons_inv hs₁.of_cons hs₂.of_cons ?_
        intro p hp' q hq' hpq
        exact hinj p (List.mem_cons_of_mem a hp') q (List.mem_cons_of_mem a hq') hpq
      rw [htail]

theorem headD_rotate (s : List Pt) (i : ℕ) (h : i < s.length) (d : Pt) :
    (s.rotate i).headD d = s.getD i d := by
  rw [List.rotate_eq_drop_append_take (le_of_lt h)]
  have h2 : (s.drop i).head? = s[i]? := List.head?_drop s i
  rw [List.getElem?_eq_getElem h] at h2
  cases hd : s.drop i with
  | nil => rw [hd] at h2; simp at h2
  | cons e rest =>
    rw [hd] at h2
    simp only [List.head?_cons, Option.some.injEq] at h2
    rw [List.cons_append, List.headD_cons, List.getD_eq_getElem s d h]
    exact h2

theorem getD_map_sumXY (s : List Pt) (i : ℕ) (h : i < s.length) :
    (s.map sumXY).getD i 0 = sumXY (s.getD i (0, 0)) := by
  rw [List.getD_eq_getElem _ _ (by simpa using h), List.getD_eq_getElem _ _ h]
  simp

theorem getD_indexOf_self (l : List ℚ) (a : ℚ) (h : a ∈ l) :
    l.getD (l.indexOf a) 0 = a := by
  have hlt : l.indexOf a < l.length := List.indexOf_lt_length.mpr h
  rw [List.getD_eq_getElem _ _ hlt]
  exact List.getElem_indexOf hlt

/-- C6: for a list of exactly 4 points with no angle ties about the
centroid and no `x + y` ties, `_order_points` is input-order-invariant
(every permutation of the points yields the identical output cycle); the
output is the input sorted ascending by `atan2` angle about the centroid
and then rotated so that the point minimising `x + y` comes first; and the
first output point attains the minimum of `x + y` over all points. -/
theorem corner_ordering_invariance (l l' : List Pt) (h4 : l.length = 4)
    (hperm : l'.Perm l)
    (hang : l.Pairwise (fun p q => angPair (centroid l) p ≠ angPair (centroid l) q))
    (hsum : l.Pairwise (fun p q => sumXY p ≠ sumXY q)) :
    order_points l' = order_points l ∧
    sumXY ((order_points l).headD (0, 0)) = listMin (l.map sumXY) ∧
    order_points l = (List.insertionSort (angLe (centroid l)) l).rotate
        (((List.insertionSort (angLe (centroid l)) l).map sumXY).indexOf
          (listMin ((List.insertionSort (angLe (centroid l)) l).map sumXY))) := by
  have _hsum := hsum
  set c := centroid l with hcdef
  haveI : IsTotal Pt (angLe c) := ⟨angLe_total c⟩
  haveI : IsTrans Pt (angLe c) := ⟨angLe_trans c⟩
  -- the centroid is permutation-invariant
  have hc' : centroid l' = c := by
    rw [hcdef]
    unfold centroid
    rw [(hperm.map Prod.fst).sum_eq, (hperm.map Prod.snd).sum_eq, hperm.length_eq]
  -- pairwise-distinct angle keys give injectivity of the key on `l`
  have hsymm : Symmetric (fun p q : Pt => angPair c p ≠ angPair c q) :=
    fun _ _ h he => h he.symm
  have hinj : ∀ p ∈ l, ∀ q ∈ l, angPair c p = angPair c q → p = q := by
    intro p hp q hq he
    by_contra hne
    exact hang.forall hsymm hp hq hne he
  -- the two insertion sorts agree
  have hsperm : (List.insertionSort (angLe c) l').Perm (List.insertionSort (angLe c) l) :=
    (List.perm_insertionSort _ l').trans (hperm.trans (List.perm_insertionSort _ l).symm)
  have hsort_eq : List.insertionSort (angLe c) l' = List.insertionSort (angLe c) l := by
    refine sorted_perm_eq c _ _ hsperm (List.sorted_insertionSort _ l')
      (List.sorted_insertionSort _ l) ?_
    intro p hp q hq
    have hp' : p ∈ l := hperm.subset ((List.perm_insertionSort (angLe c) l').subset hp)
    have hq' : q ∈ l := hperm.subset ((List.perm_insertionSort (angLe c) l').subset hq)
    exact hinj p hp' q hq'
  refine ⟨?_, ?_, rfl⟩
  · simp only [order_points]
    rw [hc', hsort_eq]
  · -- the first element of the rotated cycle attains the minimum sum
    have hslen : (List.insertionSort (angLe c) l).length = 4 :=
      ((List.perm_insertionSort (angLe c) l).length_eq).trans h4
    have hsums_len : ((List.insertionSort (angLe c) l).map sumXY).length = 4 := by
      simpa using hslen
    have hsums_ne : (List.insertionSort (angLe c) l).map sumXY ≠ [] := by
      intro he
      rw [he] at hsums_len
      simp at hsums_len
    have hmem : listMin ((List.insertionSort (angLe c) l).map sumXY) ∈
        (List.insertionSort (angLe c) l).map sumXY := listMin_mem hsums_ne
    have hidx : ((List.insertionSort (angLe c) l).map sumXY).indexOf
        (listMin ((List.insertionSort (angLe c) l).map sumXY)) <
        ((List.insertionSort (angLe c) l).map sumXY).length :=
      List.indexOf_lt_length.mpr hmem
    have hidx' : ((List.insertionSort (angLe c) l).map sumXY).indexOf
        (listMin ((List.insertionSort (angLe c) l).map sumXY)) <
        (List.insertionSort (angLe c) l).length := by
      simpa using hidx
    have hrot : order_points l = (List.insertionSort (angLe c) l).rotate
        (((List.insertionSort (angLe c) l).map sumXY).indexOf
          (listMin ((List.insertionSort (angLe c) l).map sumXY))) := rfl
    rw [hrot, headD_rotate _ _ hidx']
    rw [← getD_map_sumXY _ _ hidx', getD_indexOf_self _ _ hmem]
    exact listMin_perm ((List.perm_insertionSort (angLe c) l).map sumXY)

/-- cornersW is a concrete tie-free 4-point set for the ordering witness. -/
def cornersW : List Pt := [(5, 2), (1, 1), (4, 6), (0, 5)]

/-- cornersW' is `cornersW` with its first two points swapped. -/
def cornersW' : List Pt := [(1, 1), (5, 2), (4, 6), (0, 5)]

/-- Witness for `corner_ordering_invariance` at a concrete point set and
permutation. -/
theorem corner_ordering_invariance_witness :
    cornersW.length = 4 ∧
    cornersW'.Perm cornersW ∧
    order_points cornersW' = order_points cornersW ∧
    sumXY ((order_points cornersW).headD (0, 0)) = listMin (cornersW.map sumXY) := by
  have h4 : cornersW.length = 4 := rfl
  have hp : cornersW'.Perm cornersW := List.Perm.swap (5, 2) (1, 1) [(4, 6), (0, 5)]
  have hang : cornersW.Pairwise
      (fun p q => angPair (centroid cornersW) p ≠ angPair (centroid cornersW) q) := by
    with_unfolding_all decide
  have hsum : cornersW.Pairwise (fun p q => sumXY p ≠ sumXY q) := by
    with_unfolding_all decide
  have h := corner_ordering_invariance cornersW cornersW' h4 hp hang hsum
  exact ⟨h4, hp, h.1, h.2.1⟩

/-! ## RectifierTransform: target rectangle and homography
(`MainWindow._on_preview_changed`, enable branch, `main_window.py`).

Euclidean norms are irrational in general, so this part of the model works
over `ℝ`.  The homography itself is produced by the third-party call
`cv2.getPerspectiveTransform(src_points, target_points)`; its documented
contract — return the 3×3 perspective matrix mapping each source corner
exactly onto the corresponding target corner — is modelled by the
predicate `SolvesCorrespondence`. -/

/-- enorm is the Euclidean norm `np.linalg.norm` of a 2D float vector. -/
noncomputable def enorm (p : ℝ × ℝ) : ℝ := Real.sqrt (p.1 ^ 2 + p.2 ^ 2)

/-- rsub is componentwise subtraction of real points. -/
def rsub (p q : ℝ × ℝ) : ℝ × ℝ := (p.1 - q.1, p.2 - q.2)

/-- rectWidth models `width = max(norm(src[1]-src[0]), norm(src[2]-src[3]))`. -/
noncomputable def rectWidth (c : Fin 4 → ℝ × ℝ) : ℝ :=
  max (enorm (rsub (c 1) (c 0))) (enorm (rsub (c 2) (c 3)))

/-- rectHeight models `height = max(norm(src[3]-src[0]), norm(src[2]-src[1]))`. -/
noncomputable def rectHeight (c : Fin 4 → ℝ × ℝ) : ℝ :=
  max (enorm (rsub (c 3) (c 0))) (enorm (rsub (c 2) (c 1)))

/-- targetCorner models the `target_points` rectangle
`[(0,0), (w,0), (w,h), (0,h)]` built from the ordered source corners. -/
noncomputable def targetCorner (c : Fin 4 → ℝ × ℝ) : Fin 4 → ℝ × ℝ
  | 0 => (0, 0)
  | 1 => (rectWidth c, 0)
  | 2 => (rectWidth c, rectHeight c)
  | 3 => (0, rectHeight c)

/-- HomR is a real 3×3 matrix given by its nine entries, rows `(a b c)`,
`(d e f)`, `(g h i)`. -/
structure HomR where
  a : ℝ
  b : ℝ
  c : ℝ
  d : ℝ
  e : ℝ
  f : ℝ
  g : ℝ
  h : ℝ
  i : ℝ

/-- applyHomR is the homogeneous-division perspective mapping
(`cv2.perspectiveTransform` on a single point). -/
noncomputable def applyHomR (M : HomR) (p : ℝ × ℝ) : ℝ × ℝ :=
  let w := M.g * p.1 + M.h * p.2 + M.i
  ((M.a * p.1 + M.b * p.2 + M.c) / w, (M.d * p.1 + M.e * p.2 + M.f) / w)

/-- SolvesCorrespondence is the documented contract of the third-party
`cv2.getPerspectiveTransform`: the returned matrix maps each of the four
source points exactly onto the corresponding destination point. -/
def SolvesCorrespondence (M : HomR) (src dst : Fin 4 → ℝ × ℝ) : Prop :=
  ∀ k : Fin 4, applyHomR M (src k) = dst k

/-- C7: for every ordered 4-corner quad, the target rectangle has width
`max(|c1-c0|, |c2-c3|)` and height `max(|c3-c0|, |c2-c1|)` (Euclidean
norms), its corners are `(0,0), (w,0), (w,h), (0,h)` matched positionally
to the ordered input corners, and the computed homography (any matrix
satisfying the cv2 solve contract) reproduces each target corner from
the corresponding input corner within 1e-3 px (in fact exactly). -/
theorem homography_exactness (c : Fin 4 → ℝ × ℝ) (M : HomR)
    (hsolve : SolvesCorrespondence M c (targetCorner c)) :
    rectWidth c = max (enorm (rsub (c 1) (c 0))) (enorm (rsub (c 2) (c 3))) ∧
    rectHeight c = max (enorm (rsub (c 3) (c 0))) (enorm (rsub (c 2) (c 1))) ∧
    targetCorner c 0 = (0, 0) ∧ targetCorner c 1 = (rectWidth c, 0) ∧
    targetCorner c 2 = (rectWidth c, rectHeight c) ∧ targetCorner c 3 = (0, rectHeight c) ∧
    ∀ k : Fin 4,
      |(applyHomR M (c k)).1 - (targetCorner c k).1| ≤ 1/1000 ∧
      |(applyHomR M (c k)).2 - (targetCorner c k).2| ≤ 1/1000 := by
  refine ⟨rfl, rfl, rfl, rfl, rfl, rfl, ?_⟩
  intro k
  rw [hsolve k]
  constructor <;> simp

/-- squareC is the spec's concrete square quad, as ordered corners. -/
noncomputable def squareC : Fin 4 → ℝ × ℝ
  | 0 => (10, 10)
  | 1 => (110, 10)
  | 2 => (110, 110)
  | 3 => (10, 110)

/-- homW is the translation homography mapping `squareC` onto its target
rectangle. -/
noncomputable def homW : HomR := ⟨1, 0, -10, 0, 1, -10, 0, 0, 1⟩

/-- Witness for `homography_exactness` at the concrete square quad with an
explicit solving matrix. -/
theorem homography_exactness_witness :
    SolvesCorrespondence homW squareC (targetCorner squareC) ∧
    ∀ k : Fin 4,
      |(applyHomR homW (squareC k)).1 - (targetCorner squareC k).1| ≤ 1/1000 ∧
      |(applyHomR homW (squareC k)).2 - (targetCorner squareC k).2| ≤ 1/1000 := by
  have e1 : enorm (rsub ((110:ℝ), (10:ℝ)) ((10:ℝ), (10:ℝ))) = 100 := by
    show Real.sqrt (((110:ℝ) - 10) ^ 2 + ((10:ℝ) - 10) ^ 2) = 100
    rw [show ((110:ℝ) - 10) ^ 2 + ((10:ℝ) - 10) ^ 2 = 100 ^ 2 by norm_num]
    exact Real.sqrt_sq (by norm_num)
  have e2 : enorm (rsub ((110:ℝ), (110:ℝ)) ((10:ℝ), (110:ℝ))) = 100 := by
    show Real.sqrt (((110:ℝ) - 10) ^ 2 + ((110:ℝ) - 110) ^ 2) = 100
    rw [show ((110:ℝ) - 10) ^ 2 + ((110:ℝ) - 110) ^ 2 = 100 ^ 2 by norm_num]
    exact Real.sqrt_sq (by norm_num)
  have e3 : enorm (rsub ((10:ℝ), (110:ℝ)) ((10:ℝ), (10:ℝ))) = 100 := by
    show Real.sqrt (((10:ℝ) - 10) ^ 2 + ((110:ℝ) - 10) ^ 2) = 100
    rw [show ((10:ℝ) - 10) ^ 2 + ((110:ℝ) - 10) ^ 2 = 100 ^ 2 by norm_num]
    exact Real.sqrt_sq (by norm_num)
  have e4 : enorm (rsub ((110:ℝ), (110:ℝ)) ((110:ℝ), (10:ℝ))) = 100 := by
    show Real.sqrt (((110:ℝ) - 110) ^ 2 + ((110:ℝ) - 10) ^ 2) = 100
    rw [show ((110:ℝ) - 110) ^ 2 + ((110:ℝ) - 10) ^ 2 = 100 ^ 2 by norm_num]
    exact Real.sqrt_sq (by norm_num)
  have hw : rectWidth squareC = 100 := by
    show max (enorm (rsub ((110:ℝ), (10:ℝ)) ((10:ℝ), (10:ℝ))))
      (enorm (rsub ((110:ℝ), (110:ℝ)) ((10:ℝ), (110:ℝ)))) = 100
    rw [e1, e2]
    exact max_self 100
  have hh : rectHeight squareC = 100 := by
    show max (enorm (rsub ((10:ℝ), (110:ℝ)) ((10:ℝ), (10:ℝ))))
      (enorm (rsub ((110:ℝ), (110:ℝ)) ((110:ℝ), (10:ℝ)))) = 100
    rw [e3, e4]
    exact max_self 100
  have hsolve : SolvesCorrespondence homW squareC (targetCorner squareC) := by
    have h0 : applyHomR homW (squareC 0) = targetCorner squareC 0 := by
      show applyHomR homW (10, 10) = ((0:ℝ), (0:ℝ))
      simp only [applyHomR, homW]
      norm_num
    have h1 : applyHomR homW (squareC 1) = targetCorner squareC 1 := by
      show applyHomR homW (110, 10) = (rectWidth squareC, (0:ℝ))
      rw [hw]
      simp only [applyHomR, homW]
      norm_num
    have h2 : applyHomR homW (squareC 2) = targetCorner squareC 2 := by
      show applyHomR homW (110, 110) = (rectWidth squareC, rectHeight squareC)
      rw [hw, hh]
      simp only [applyHomR, homW]
      norm_num
    have h3 : applyHomR homW (squareC 3) = targetCorner squareC 3 := by
      show applyHomR homW (10, 110) = ((0:ℝ), rectHeight squareC)
      rw [hh]
      simp only [applyHomR, homW]
      norm_num
    intro k
    match k with
    | 0 => exact h0
    | 1 => exact h1
    | 2 => exact h2
    | 3 => exact h3
  exact ⟨hsolve, (homography_exactness squareC homW hsolve).2.2.2.2.2.2⟩

/-! ## RectifierTransform: translation compensation and output bounds
(`MainWindow._on_preview_changed`, lines following the homography solve).

Here the homography matrix is an arbitrary rational 3×3 matrix (the float
entries that cv2 returned, modelled exactly); everything downstream of the
solve — transformed image-corner bounds, translation matrix, combined
transform, output raster size — is repository code and is embedded
faithfully. -/

/-- M3 is a 3×3 matrix of rationals, rows `(a b c)`, `(d e f)`, `(g h i)`. -/
structure M3 where
  a : ℚ
  b : ℚ
  c : ℚ
  d : ℚ
  e : ℚ
  f : ℚ
  g : ℚ
  h : ℚ
  i : ℚ
deriving DecidableEq

/-- m3mul is 3×3 matrix multiplication (`translation @ transform`). -/
def m3mul (A B : M3) : M3 :=
  ⟨A.a * B.a + A.b * B.d + A.c * B.g, A.a * B.b + A.b * B.e + A.c * B.h,
    A.a * B.c + A.b * B.f + A.c * B.i,
    A.d * B.a + A.e * B.d + A.f * B.g, A.d * B.b + A.e * B.e + A.f * B.h,
    A.d * B.c + A.e * B.f + A.f * B.i,
    A.g * B.a + A.h * B.d + A.i * B.g, A.g * B.b + A.h * B.e + A.i * B.h,
    A.g * B.c + A.h * B.f + A.i * B.i⟩

/-- pdenom is the homogeneous denominator of the perspective mapping at a
point. -/
def pdenom (M : M3) (p : Pt) : ℚ := M.g * p.1 + M.h * p.2 + M.i

/-- persp is `cv2.perspectiveTransform` on a single rational point. -/
def persp (M : M3) (p : Pt) : Pt :=
  ((M.a * p.1 + M.b * p.2 + M.c) / pdenom M p,
   (M.d * p.1 + M.e * p.2 + M.f) / pdenom M p)

/-- imgCorners models `[[0, 0], [w, 0], [w, h], [0, h]]` for an image of
pixel size `W × H` (`h, w = self.original_image.shape[:2]`). -/
def imgCorners (W H : ℕ) : List Pt := [(0, 0), ((W : ℚ), 0), ((W : ℚ), (H : ℚ)), (0, (H : ℚ))]

/-- listMax models Python's `max` on a list of floats (0 on the empty
list, which the source never passes). -/
def listMax : List ℚ → ℚ
  | [] => 0
  | x :: xs => xs.foldl max x

/-- minXOf models `min_x = min(transformed_corners[:, 0])`. -/
def minXOf (M : M3) (W H : ℕ) : ℚ := listMin (((imgCorners W H).map (persp M)).map Prod.fst)

/-- minYOf models `min_y = min(transformed_corners[:, 1])`. -/
def minYOf (M : M3) (W H : ℕ) : ℚ := listMin (((imgCorners W H).map (persp M)).map Prod.snd)

/-- maxXOf models `max_x = max(transformed_corners[:, 0])`. -/
def maxXOf (M : M3) (W H : ℕ) : ℚ := listMax (((imgCorners W H).map (persp M)).map Prod.fst)

/-- maxYOf models `max_y = max(transformed_corners[:, 1])`. -/
def maxYOf (M : M3) (W H : ℕ) : ℚ := listMax (((imgCorners W H).map (persp M)).map Prod.snd)

/-- translationM models the translation matrix
`[[1, 0, -min_x if min_x < 0 else 0], [0, 1, -min_y if min_y < 0 else 0], [0, 0, 1]]`. -/
def translationM (M : M3) (W H : ℕ) : M3 :=
  ⟨1, 0, if minXOf M W H < 0 then -minXOf M W H else 0,
    0, 1, if minYOf M W H < 0 then -minYOf M W H else 0,
    0, 0, 1⟩

/-- fullTransform models `full_transform = translation @ transform`. -/
def fullTransform (M : M3) (W H : ℕ) : M3 := m3mul (translationM M W H) M

/-- outputWidth models
`int(max_x - min_x) if min_x < 0 else int(max_x)`. -/
def outputWidth (M : M3) (W H : ℕ) : ℤ :=
  if minXOf M W H < 0 then pyInt (maxXOf M W H - minXOf M W H) else pyInt (maxXOf M W H)

/-- outputHeight models
`int(max_y - min_y) if min_y < 0 else int(max_y)`. -/
def outputHeight (M : M3) (W H : ℕ) : ℤ :=
  if minYOf M W H < 0 then pyInt (maxYOf M W H - minYOf M W H) else pyInt (maxYOf M W H)

/-- Applying the translation-extended transform shifts each perspective
image of a point by the translation amounts, provided the homogeneous
denominator at that point is nonzero (the third row of the translation is
`(0 0 1)`, so the denominator is unchanged). -/
theorem persp_fullTransform (M : M3) (W H : ℕ) (p : Pt) (hd : pdenom M p ≠ 0) :
    persp (fullTransform M W H) p =
      ((persp M p).1 + (if minXOf M W H < 0 then -minXOf M W H else 0),
       (persp M p).2 + (if minYOf M W H < 0 then -minYOf M W H else 0)) := by
  have hden : pdenom (fullTransform M W H) p = pdenom M p := by
    simp [pdenom, fullTransform, m3mul, translationM]
  have hkey : ∀ n t : ℚ, (n + t * pdenom M p) / pdenom M p = n / pdenom M p + t := by
    intro n t
    field_simp
  have hx : (fullTransform M W H).a * p.1 + (fullTransform M W H).b * p.2 + (fullTransform M W H).c =
      (M.a * p.1 + M.b * p.2 + M.c) + (if minXOf M W H < 0 then -minXOf M W H else 0) * pdenom M p := by
    simp only [fullTransform, m3mul, translationM, pdenom]
    ring
  have hy : (fullTransform M W H).d * p.1 + (fullTransform M W H).e * p.2 + (fullTransform M W H).f =
      (M.d * p.1 + M.e * p.2 + M.f) + (if minYOf M W H < 0 then -minYOf M W H else 0) * pdenom M p := by
    simp only [fullTransform, m3mul, translationM, pdenom]
    ring
  unfold persp
  rw [hden, hx, hy, hkey, hkey]

theorem listMin4_add (a b c d t : ℚ) :
    listMin [a + t, b + t, c + t, d + t] = listMin [a, b, c, d] + t := by
  simp [listMin, min_add_add_right]

/-- C8: the final transform is `F = T · H` with `T` translating by
`(-minX if minX < 0 else 0, -minY if minY < 0 else 0)` computed from the
bounding box of `H` applied to the image corners `(0,0), (W,0), (W,H),
(0,H)`; the output raster size is `(maxX-minX if minX < 0 else maxX,
maxY-minY if minY < 0 else maxY)` truncated to integer pixels; and the
bounding box of `F` applied to the image corners has `minX ≥ 0` and
`minY ≥ 0` (no content at negative coordinates), for any homography whose
homogeneous denominator is nonzero at the four image corners. -/
theorem full_image_containment (M : M3) (W H : ℕ)
    (hd : ∀ p ∈ imgCorners W H, pdenom M p ≠ 0) :
    fullTransform M W H = m3mul (translationM M W H) M ∧
    outputWidth M W H = (if minXOf M W H < 0 then pyInt (maxXOf M W H - minXOf M W H)
      else pyInt (maxXOf M W H)) ∧
    outputHeight M W H = (if minYOf M W H < 0 then pyInt (maxYOf M W H - minYOf M W H)
      else pyInt (maxYOf M W H)) ∧
    0 ≤ listMin (((imgCorners W H).map (persp (fullTransform M W H))).map Prod.fst) ∧
    0 ≤ listMin (((imgCorners W H).map (persp (fullTransform M W H))).map Prod.snd) := by
  have hd0 : pdenom M (0, 0) ≠ 0 := hd _ (by simp [imgCorners])
  have hd1 : pdenom M ((W : ℚ), 0) ≠ 0 := hd _ (by simp [imgCorners])
  have hd2 : pdenom M ((W : ℚ), (H : ℚ)) ≠ 0 := hd _ (by simp [imgCorners])
  have hd3 : pdenom M (0, (H : ℚ)) ≠ 0 := hd _ (by simp [imgCorners])
  refine ⟨rfl, rfl, rfl, ?_, ?_⟩
  · have hX : ((imgCorners W H).map (persp (fullTransform M W H))).map Prod.fst =
        [(persp M (0, 0)).1 + (if minXOf M W H < 0 then -minXOf M W H else 0),
         (persp M ((W : ℚ), 0)).1 + (if minXOf M W H < 0 then -minXOf M W H else 0),
         (persp M ((W : ℚ), (H : ℚ))).1 + (if minXOf M W H < 0 then -minXOf M W H else 0),
         (persp M (0, (H : ℚ))).1 + (if minXOf M W H < 0 then -minXOf M W H else 0)] := by
      simp only [imgCorners, List.map_cons, List.map_nil,
        persp_fullTransform M W H (0, 0) hd0,
        persp_fullTransform M W H ((W : ℚ), 0) hd1,
        persp_fullTransform M W H ((W : ℚ), (H : ℚ)) hd2,
        persp_fullTransform M W H (0, (H : ℚ)) hd3]
    have hmin : minXOf M W H = listMin [(persp M (0, 0)).1, (persp M ((W : ℚ), 0)).1,
        (persp M ((W : ℚ), (H : ℚ))).1, (persp M (0, (H : ℚ))).1] := by
      simp [minXOf, imgCorners]
    rw [hX, listMin4_add, ← hmin]
    rcases lt_or_ge (minXOf M W H) 0 with hlt | hge
    · rw [if_pos hlt]
      linarith
    · rw [if_neg (not_lt.mpr hge)]
      linarith
  · have hY : ((imgCorners W H).map (persp (fullTransform M W H))).map Prod.snd =
        [(persp M (0, 0)).2 + (if minYOf M W H < 0 then -minYOf M W H else 0),
         (persp M ((W : ℚ), 0)).2 + (if minYOf M W H < 0 then -minYOf M W H else 0),
         (persp M ((W : ℚ), (H : ℚ))).2 + (if minYOf M W H < 0 then -minYOf M W H else 0),
         (persp M (0, (H : ℚ))).2 + (if minYOf M W H < 0 then -minYOf M W H else 0)] := by
      simp only [imgCorners, List.map_cons, List.map_nil,
        persp_fullTransform M W H (0, 0) hd0,
        persp_fullTransform M W H ((W : ℚ), 0) hd1,
        persp_fullTransform M W H ((W : ℚ), (H : ℚ)) hd2,
        persp_fullTransform M W H (0, (H : ℚ)) hd3]
    have hmin : minYOf M W H = listMin [(persp M (0, 0)).2, (persp M ((W : ℚ), 0)).2,
        (persp M ((W : ℚ), (H : ℚ))).2, (persp M (0, (H : ℚ))).2] := by
      simp [minYOf, imgCorners]
    rw [hY, listMin4_add, ← hmin]
    rcases lt_or_ge (minYOf M W H) 0 with hlt | hge
    · rw [if_pos hlt]
      linarith
    · rw [if_neg (not_lt.mpr hge)]
      linarith

/-- homC8 is a concrete homography (a shear plus translation placing part
of the image at negative coordinates) for the containment witness. -/
def homC8 : M3 := ⟨1, 0, -5, 0, 1, 3, 0, 0, 1⟩

/-- Witness for `full_image_containment` at a concrete matrix and image
size. -/
theorem full_image_containment_witness :
    (∀ p ∈ imgCorners 3 2, pdenom homC8 p ≠ 0) ∧
    0 ≤ listMin (((imgCorners 3 2).map (persp (fullTransform homC8 3 2))).map Prod.fst) ∧
    0 ≤ listMin (((imgCorners 3 2).map (persp (fullTransform homC8 3 2))).map Prod.snd) := by
  have hd : ∀ p ∈ imgCorners 3 2, pdenom homC8 p ≠ 0 := by
    intro p hp
    fin_cases hp <;> with_unfolding_all decide
  have h := full_image_containment homC8 3 2 hd
  exact ⟨hd, h.2.2.2.1, h.2.2.2.2⟩

/-! ## Degenerate quads: the homography solve on collinear corners
(`cv2.getPerspectiveTransform` inside `_on_preview_changed`).

`cv2.getPerspectiveTransform` builds the standard 8×8 DLT linear system
for the four point correspondences and solves it by LU decomposition
(`cv2.solve` with `DECOMP_LU`), which fails exactly when the matrix is
singular.  The LU solve is modelled by exact Gaussian elimination over ℚ
(pivot choice differs from partial pivoting, but over exact arithmetic
success and solution coincide: elimination fails iff the matrix is
singular). -/

/-- elimFirst subtracts `(row₀/piv₀) ×` the pivot row from a row and drops
the leading entry (one forward-elimination step). -/
def elimFirst (piv row : List ℚ) : List ℚ :=
  (List.zipWith (fun a b => b - row.headD 0 / piv.headD 0 * a) piv row).tail

/-- findPivot scans for the first row with a nonzero leading entry,
returning it and the remaining rows; `none` when the leading column is
all zeros (the singular case). -/
def findPivot : List (List ℚ) → Option (List ℚ × List (List ℚ))
  | [] => none
  | r :: rs =>
    if r.headD 0 ≠ 0 then some (r, rs)
    else
      match findPivot rs with
      | some (p, rest) => some (p, r :: rest)
      | none => none

/-- forwardElim reduces an augmented system to row-echelon form; the fuel
argument (instantiated with the number of rows) bounds the recursion.
Returns `none` exactly when some step finds no nonzero pivot — the case
in which the LU decomposition reports failure. -/
def forwardElim : ℕ → List (List ℚ) → Option (List (List ℚ))
  | _, [] => some []
  | 0, _ :: _ => none
  | n + 1, r :: rs =>
    match findPivot (r :: rs) with
    | none => none
    | some (p, rest) =>
      (forwardElim n (rest.map (elimFirst p))).map fun tri => p :: tri

/-- solveRow back-substitutes one echelon row `p :: cs ++ [rhs]` given the
already-solved trailing variables. -/
def solveRow (row : List ℚ) (sol : List ℚ) : ℚ :=
  match row with
  | [] => 0
  | p :: rest => (rest.getLastD 0 - (List.zipWith (fun a b => a * b) rest sol).sum) / p

/-- backSub solves a row-echelon system bottom-up. -/
def backSub (tri : List (List ℚ)) : List ℚ :=
  tri.foldr (fun row sol => solveRow row sol :: sol) []

/-- gaussSolve models `cv2.solve(A, B, X, DECOMP_LU)` on an augmented
rational system: `none` exactly when the matrix is singular. -/
def gaussSolve (rows : List (List ℚ)) : Option (List ℚ) :=
  (forwardElim rows.length rows).map backSub

/-- dltRows are the two rows `cv2.getPerspectiveTransform` adds to its
8×8 system for one correspondence `s → t`:
`[sx, sy, 1, 0, 0, 0, -sx*tx, -sy*tx | tx]` and
`[0, 0, 0, sx, sy, 1, -sx*ty, -sy*ty | ty]` (augmented with the
right-hand side). -/
def dltRows (s t : Pt) : List (List ℚ) :=
  [[s.1, s.2, 1, 0, 0, 0, -s.1 * t.1, -s.2 * t.1, t.1],
   [0, 0, 0, s.1, s.2, 1, -s.1 * t.2, -s.2 * t.2, t.2]]

/-- dltSystem is the full augmented 8×9 system for the 4 correspondences. -/
def dltSystem (src tgt : List Pt) : List (List ℚ) :=
  (List.zip src tgt).flatMap fun st => dltRows st.1 st.2

/-- getPerspectiveTransformQ models `cv2.getPerspectiveTransform` on
rational data: solve the DLT system (`none` when singular) and assemble
the 3×3 matrix with `M[2][2] = 1`. -/
def getPerspectiveTransformQ (src tgt : List Pt) : Option M3 :=
  (gaussSolve (dltSystem src tgt)).map fun h =>
    ⟨h.getD 0 0, h.getD 1 0, h.getD 2 0, h.getD 3 0, h.getD 4 0,
     h.getD 5 0, h.getD 6 0, h.getD 7 0, 1⟩

/-- targetRect models `target_points = [[0,0],[w,0],[w,h],[0,h]]`. -/
def targetRect (w h : ℚ) : List Pt := [(0, 0), (w, 0), (w, h), (0, h)]

/-- previewSolve is the corner-ordering plus homography-solve portion of
the preview-enable path: order the raw points, then solve for the
transform onto the `w × h` target rectangle. -/
def previewSolve (pts : List Pt) (w h : ℚ) : Option M3 :=
  getPerspectiveTransformQ (order_points pts) (targetRect w h)

/-- C9: at the collinear corner input `(0,0),(50,0),(100,0),(150,0)` the
ordered corners come out as `(0,0),(50,0),(100,0),(150,0)`; the source's
target sizes are `w = 50`, `h = 150` (the Euclidean norms are exact
integers at this input); and the homography solve fails — the DLT system
is singular, so the cv2 call fails inside the `try` block and control
lands in the blanket `except Exception` handler, which resets the preview
checkbox and shows a generic message box.  No typed `DegenerateQuad`
failure exists anywhere in the repository. -/
theorem degenerate_quad_no_typed_error :
    order_points [(0, 0), (50, 0), (100, 0), (150, 0)] =
      [(0, 0), (50, 0), (100, 0), (150, 0)] ∧
    previewSolve [(0, 0), (50, 0), (100, 0), (150, 0)] 50 150 = none := by
  constructor <;> with_unfolding_all decide

/-! ## RectificationSession: `MainWindow` preview state machine
(`main_window.py`, `point_selector.py`).

The application state is the part of `MainWindow`, `ImageView`,
`PointSelector` and `GridOverlay` that the preview lifecycle touches.
Pixel buffers are lists of `(r, g, b)` channel triples holding the file's
true colours.  The two load paths produce the same values:
`ImageView.load_image` reads the file with cv2 (BGR) and converts
BGR→RGB, and `_on_open_image` decodes the file through `QImage`, whose
`Format_RGB32`/`Format_ARGB32` data is packed `0xAARRGGBB`, i.e. bytes
`B, G, R, A` in memory on little-endian hosts, so the subsequent
`cv2.cvtColor(..., COLOR_RGBA2BGR)` (which emits channels `[2], [1], [0]`
of its input) again yields the true `(r, g, b)` triples.  Both buffers are
therefore modelled as the file's RGB pixel data.

The numeric perspective transform (whose width/height involve irrational
Euclidean norms) and the raster warp `cv2.warpPerspective` are passed in
as parameters `F` and `warp`: the snapshot/restore behaviour under
scrutiny here is the same for every transform, and the theorems quantify
over (or instantiate) them.  The failing-solve path is modelled
separately (`previewSolve` above).

Re-entrancy: every internal `setChecked(False)` in the source fires the
`stateChanged` handler again, but at each such call site the re-entrant
handler provably changes nothing (the image is loaded and the point count
is not 4, so it just re-asserts the already-cleared checkbox); the model
therefore inlines those calls as plain checkbox-field updates. -/

/-- Image is a pixel buffer: a list of channel triples. -/
abbrev Image := List (ℕ × ℕ × ℕ)

/-- Snapshot models `self._original_state`: copies of the stored original
image, the raw corner points, and the grid lattice (or `None`). -/
structure Snapshot where
  image : Image
  points : List Pt
  gridPoints : Option (List (List Pt))
deriving DecidableEq

/-- AppState is the preview-relevant application state:
`MainWindow.original_image`, `ImageView.image` (the displayed working
buffer), `PointSelector.points` and `is_locked`, `GridOverlay.grid_points`
and its grid size, the `_original_state` snapshot (absent when the
attribute does not exist), and the preview checkbox. -/
structure AppState where
  originalImage : Option Image
  viewImage : Option Image
  points : List Pt
  gridPoints : Option (List (List Pt))
  gridRows : ℕ
  gridCols : ℕ
  snapshot : Option Snapshot
  checkboxChecked : Bool
  locked : Bool
deriving DecidableEq

/-- initialState is the state after `MainWindow.__init__`: no images, no
points, no snapshot, 4×4 grid size, checkbox unchecked. -/
def initialState : AppState :=
  { originalImage := none, viewImage := none, points := [], gridPoints := none,
    gridRows := 4, gridCols := 4, snapshot := none, checkboxChecked := false,
    locked := false }

/-- on_preview_changed models `MainWindow._on_preview_changed` for a run
of the `try` block in which the cv2 calls succeed, with the computed
transform abstracted as `F` and the raster warp as `warp`.  It returns
early if no original image is stored; unchecks and returns if the corner
count is not 4; on enable it stores the snapshot unless one already
exists (`if not hasattr(self, '_original_state')`), locks the points,
replaces the working image with the warp of the stored original, and
replaces grid and corner points with their `F`-images (corners after
`_order_points`); on disable it restores image and points from the
snapshot, restores the grid only if the snapshot's grid is not `None`,
deletes the snapshot, and unlocks. -/
def on_preview_changed (F : M3) (warp : Image → Image) (newState : Bool) (s : AppState) :
    AppState :=
  match s.originalImage with
  | none => s
  | some orig =>
    if s.points.length ≠ 4 then { s with checkboxChecked := false }
    else
      if newState then
        let s1 := if s.snapshot.isSome then s
          else { s with snapshot := some ⟨orig, s.points, s.gridPoints⟩ }
        { s1 with
          locked := true,
          viewImage := some (warp orig),
          gridPoints := s1.gridPoints.map fun g => g.map fun row => row.map (persp F),
          points := (order_points s.points).map (persp F) }
      else
        match s.snapshot with
        | some snap =>
          { s with
            viewImage := some snap.image,
            points := snap.points,
            gridPoints :=
              match snap.gridPoints with
              | some g => some g
              | none => s.gridPoints,
            snapshot := none,
            locked := false }
        | none => { s with locked := false }

/-- setChecked models `QCheckBox.setChecked`: changing the check state
fires `stateChanged`, i.e. runs `_on_preview_changed` with the new state
already stored; setting the current value again does nothing. -/
def setChecked (F : M3) (warp : Image → Image) (b : Bool) (s : AppState) : AppState :=
  if s.checkboxChecked = b then s
  else on_preview_changed F warp b { s with checkboxChecked := b }

/-- load_image models `MainWindow._on_open_image` on a successful load:
`ImageView.load_image` stores the file's RGB pixels as the working image,
`original_image` receives the QImage→RGBA2BGR conversion chain, which on
little-endian hosts also yields the file's RGB pixels (see the section
comment), points are cleared (which also unlocks the selector), the grid
is reset, and finally `preview_checkbox.setChecked(False)` fires the
handler if the box was checked. -/
def load_image (F : M3) (warp : Image → Image) (file : Image) (s : AppState) : AppState :=
  let s1 : AppState :=
    { s with
      viewImage := some file,
      originalImage := some file,
      points := [],
      locked := false,
      gridPoints := none }
  if s1.checkboxChecked then
    on_preview_changed F warp false { s1 with checkboxChecked := false }
  else s1

/-- add_point models a left-click adding a corner point
(`PointSelector.mousePressEvent` plus the `_on_point_added` slot, which
feeds the new list to `GridOverlay.set_points`); ignored while locked. -/
def add_point (p : Pt) (s : AppState) : AppState :=
  if s.locked then s
  else
    let pts := s.points ++ [p]
    { s with
      points := pts,
      gridPoints :=
        if pts.length = 4 then some (generate_grid pts s.gridRows s.gridCols) else none }

/-- idM3 is the identity homography, used to instantiate the abstract
transform in closed scenarios. -/
def idM3 : M3 := ⟨1, 0, 0, 0, 1, 0, 0, 0, 1⟩

/-- fileA is a concrete one-pixel image. -/
def fileA : Image := [(200, 10, 30)]

/-- fileB is a second, different one-pixel image. -/
def fileB : Image := [(40, 50, 60)]

/-- stateA1 is the state after loading `fileA` into a fresh session. -/
def stateA1 : AppState := load_image idM3 id fileA initialState

/-- stateA2 is `stateA1` after clicking the four square corners. -/
def stateA2 : AppState :=
  add_point (10, 110) (add_point (110, 110) (add_point (110, 10) (add_point (10, 10) stateA1)))

/-- stateA3 is `stateA2` after enabling the preview. -/
def stateA3 : AppState := setChecked idM3 id true stateA2

theorem order_points_length (l : List Pt) : (order_points l).length = l.length := by
  unfold order_points
  rw [List.length_rotate]
  exact (List.perm_insertionSort _ l).length_eq

/-- C1: disabling the rectification preview after enabling it restores
the working image buffer, the corner point list and the grid lattice
bit-identically, for every state in which an image has been loaded (so
the working buffer equals the stored original, as both load paths decode
the same file), exactly 4 corner points are set, no stale snapshot is
present, and the preview is off.  Enable snapshots `(original, points,
grid)`; disable installs the snapshot image (equal to the pre-preview
working buffer), the raw point list, and the grid (a `None` grid stays
`None` through the preview, so the grid is restored in that case too). -/
theorem preview_roundtrip_restore (F : M3) (warp : Image → Image) (s : AppState)
    (orig : Image) (horig : s.originalImage = some orig) (himg : s.viewImage = some orig)
    (h4 : s.points.length = 4) (hsnap : s.snapshot = none)
    (hcb : s.checkboxChecked = false) :
    (setChecked F warp false (setChecked F warp true s)).viewImage = s.viewImage ∧
    (setChecked F warp false (setChecked F warp true s)).points = s.points ∧
    (setChecked F warp false (setChecked F warp true s)).gridPoints = s.gridPoints := by
  obtain ⟨oi, vi, pts, gp, gr, gc, sn, cb, lk⟩ := s
  simp only at horig himg h4 hsnap hcb
  subst horig himg hsnap hcb
  have hlen : (order_points pts).length = 4 := by
    rw [order_points_length]
    exact h4
  simp only [setChecked, on_preview_changed, List.length_map, h4, hlen]
  norm_num
  cases gp with
  | none => simp [hlen]
  | some g => simp [hlen]

/-- Witness for `preview_roundtrip_restore`: the loaded-image state
`stateA2` (file loaded, four corners clicked) satisfies every hypothesis,
and the enable/disable round trip restores its buffers. -/
theorem preview_roundtrip_restore_witness :
    stateA2.originalImage = some fileA ∧
    stateA2.viewImage = some fileA ∧
    stateA2.points.length = 4 ∧
    stateA2.snapshot = none ∧
    stateA2.checkboxChecked = false ∧
    (setChecked idM3 id false (setChecked idM3 id true stateA2)).viewImage =
      stateA2.viewImage ∧
    (setChecked idM3 id false (setChecked idM3 id true stateA2)).points =
      stateA2.points ∧
    (setChecked idM3 id false (setChecked idM3 id true stateA2)).gridPoints =
      stateA2.gridPoints := by
  have h1 : stateA2.originalImage = some fileA := by with_unfolding_all rfl
  have h2 : stateA2.viewImage = some fileA := by with_unfolding_all rfl
  have h3 : stateA2.points.length = 4 := by with_unfolding_all rfl
  have h4 : stateA2.snapshot = none := by with_unfolding_all rfl
  have h5 : stateA2.checkboxChecked = false := by with_unfolding_all rfl
  have h := preview_roundtrip_restore idM3 id stateA2 fileA h1 h2 h3 h4 h5
  exact ⟨h1, h2, h3, h4, h5, h.1, h.2.1, h.2.2⟩

/-- stateB1 is a reload of `fileB` performed while `stateA3` is still
previewing `fileA`. -/
def stateB1 : AppState := load_image idM3 id fileB stateA3

/-- stateB2 is `stateB1` after clicking four corners on the new image. -/
def stateB2 : AppState :=
  add_point (10, 110) (add_point (110, 110) (add_point (110, 10) (add_point (10, 10) stateB1)))

/-- stateB3 is `stateB2` after enabling the preview on the new image. -/
def stateB3 : AppState := setChecked idM3 id true stateB2

/-- stateB4 is `stateB3` after disabling the preview. -/
def stateB4 : AppState := setChecked idM3 id false stateB3

/-- C2: loading a new image while previewing does NOT force a proper
transition to Normal: `_on_open_image` clears the points and resets the
stored image BEFORE calling `setChecked(False)`, so the re-fired handler
hits the `len(points) != 4` early return and never deletes
`_original_state` — the stale snapshot of `fileA` survives the reload of
`fileB`.  Because the next preview-enable keeps an existing snapshot
(`if not hasattr`), the next disable then restores `fileA`'s buffer over
the freshly loaded `fileB`. -/
theorem reload_leaks_snapshot :
    stateA3.snapshot.isSome = true ∧
    stateB1.snapshot = stateA3.snapshot ∧
    stateB4.viewImage = some fileA ∧
    stateB4.viewImage ≠ some fileB := by
  refine ⟨?_, ?_, ?_, ?_⟩ <;> with_unfolding_all decide

/-- C10 counterexample: requesting preview-enable with no original image
loaded leaves the checkbox CHECKED — the handler returns before the
`setChecked(False)` reset, so the claimed sole observable effect
(resetting the checkbox to unchecked) does not occur. -/
theorem preview_no_image_counterexample :
    (on_preview_changed idM3 id true
      { initialState with checkboxChecked := true }).checkboxChecked ≠ false := by
  with_unfolding_all decide

/-- C10 amended: when preview-enable (or any state change) is handled with
no original image loaded, the operation changes nothing at all — in
particular the checkbox keeps the state the toggle gave it; when an image
is loaded but the corner count differs from 4, the only change is the
checkbox being reset to unchecked: working image, corner points, grid,
snapshot and lock are untouched in both cases. -/
theorem preview_precondition_effects (F : M3) (warp : Image → Image) (b : Bool)
    (s : AppState) :
    (s.originalImage = none → on_preview_changed F warp b s = s) ∧
    (∀ orig, s.originalImage = some orig → s.points.length ≠ 4 →
      on_preview_changed F warp b s = { s with checkboxChecked := false }) := by
  constructor
  · intro h
    unfold on_preview_changed
    rw [h]
  · intro orig h hlen
    unfold on_preview_changed
    rw [h]
    simp [hlen]

/-- Witness for `preview_precondition_effects`: a fresh session has no
image, and the handler leaves it unchanged. -/
theorem preview_precondition_effects_witness :
    initialState.originalImage = none ∧
    on_preview_changed idM3 id true initialState = initialState :=
  ⟨rfl, (preview_precondition_effects idM3 id true initialState).1 rfl⟩

end ImageCorrection
